import Mathlib

/-!
# manydonkey: the copy-and-report pipeline

A shallow embedding of `core/copier.go`, `core/query_executor.go` and the drain loop
of `core/core.go`, followed by the properties of the copy pipeline and of the size
formatter.

* Part I   : `formatSize` (copier.go 179-190), with the integer model of the
             `float64` conversion and of the `%.1f` verb it relies on.
* Part II  : the `links` table, the cursor, and the three drain loops.
* Part III : `SQLiteCopier.CopyData` (copier.go 31-134) and `TransferData`
             (core.go 17-74) as functions of the world they run in.
* Lemmas   : facts about the loops and about the paths through `CopyData`.
* Part IV  : the properties C1 to C10.
-/

namespace Manydonkey

/-! ## Part I: formatSize -/

/-- Wrap of an integer into the `int64` range (two-complement arithmetic). -/
def wrap64 (x : Int) : Int :=
  (x + 2 ^ 63) % 2 ^ 64 - 2 ^ 63

/-- The constant `unit` of `formatSize` (copier.go 180). -/
def unit : Int := 1024

/-- The scaling loop of `formatSize` (copier.go 185-188):
`for n := bytes / unit; n >= unit; n /= unit { div *= unit; exp++ }`.
The arguments are the loop variables `n`, `div` and `exp`; the result is the pair
`(div, exp)` at loop exit.  `div` is an `int64`, so the product is wrapped. -/
def scaleLoop (n div : Int) (exp : Nat) : Int × Nat :=
  if h : n ≥ unit then scaleLoop (n.tdiv unit) (wrap64 (div * unit)) (exp + 1)
  else (div, exp)
termination_by n.toNat
decreasing_by
  simp only [unit] at h
  have h0 : (0 : Int) ≤ n := by omega
  rw [Int.tdiv_eq_ediv h0 (by decide)]
  simp only [unit]
  omega

/-- The index expression `"KMGTPE"[exp]` (copier.go 189); `none` is the run-time panic
of an index out of range. -/
def unitLetter (exp : Nat) : Option Char :=
  "KMGTPE".toList[exp]?

/-- The conversion `float64(x)` of a positive `int64`, as the exact integer value of
the resulting float: round to nearest, ties to even, on a 53-bit significand. -/
def toFloat64 (x : Nat) : Nat :=
  let bits := Nat.log2 x + 1
  if bits ≤ 53 then x
  else
    let sh := bits - 53
    let q := x / 2 ^ sh
    let r := x % 2 ^ sh
    let half := 2 ^ (sh - 1)
    let q1 := if half < r ∨ (r = half ∧ q % 2 = 1) then q + 1 else q
    q1 * 2 ^ sh

/-- Number of tenths printed by `%.1f` for the exact quotient `num / den`: the nearest
integer to `10 * num / den`, ties to even (the rounding of package `strconv`). -/
def tenths (num den : Nat) : Nat :=
  let q := 10 * num / den
  let r := 10 * num % den
  if den < 2 * r ∨ (2 * r = den ∧ q % 2 = 1) then q + 1 else q

/-- The text of `%.1f` for a number of tenths. -/
def oneDecimal (t : Nat) : String :=
  toString (t / 10) ++ "." ++ toString (t % 10)

/-- The text of `fmt.Sprintf("%.1f", float64(bytes)/float64(div))` for positive
`bytes` and `div`.  `div` is a power of two below `2^63`, so `float64(div)` and the
float quotient are exact. -/
def sprintfQuotient (bytes div : Int) : String :=
  oneDecimal (tenths (toFloat64 bytes.toNat) div.toNat)

/-- The function `formatSize` (copier.go 179-190); `none` is a run-time panic. -/
def formatSize (bytes : Int) : Option String :=
  if bytes < unit then some (toString bytes ++ " B")
  else
    let (div, exp) := scaleLoop (bytes.tdiv unit) unit 0
    match unitLetter exp with
    | none => none
    | some c => some (sprintfQuotient bytes div ++ " " ++ c.toString ++ "B")

/-- The unit names of the size column, in the order of the letters `"KMGTPE"`. -/
def binaryUnits : List String := ["KB", "MB", "GB", "TB", "PB", "EB"]

/-! ## Part II: the table, the cursor and the drain loops -/

/-- A record of table `links`: the three columns of the source query
`SELECT url, title, created_at FROM links`. -/
structure Row where
  url : String
  title : String
  createdAt : String
deriving DecidableEq

/-- The table `links` of a database file, in insertion order. -/
abbrev Table := List Row

/-- Whether a row with the given `url` is stored in the table. -/
def hasUrl (t : Table) (u : String) : Bool :=
  t.any (fun r => r.url == u)

/-- One execution of the prepared statement
`INSERT OR IGNORE INTO links (url, title, created_at) VALUES (?, ?, ?)` on a table whose
uniqueness constraint is on `url`: the table afterwards and the rows affected. -/
def insertOrIgnore (t : Table) (r : Row) : Table × Nat :=
  if hasUrl t r.url then (t, 0) else (t ++ [r], 1)

/-- What happens to one row delivered by `rows.Next()` in the body of a drain loop.
An error inside `rows.Next()` itself makes `Next` return false, which only ends the
iteration: a drain loop sees the finite list of rows that `Next` delivered, and whether
the list ended in such an error is the separate field `World.cursorErr`, the value
that `rows.Err()` would report. -/
inductive Fetch where
  -- rows.Scan, stmt.Exec and result.RowsAffected all succeed
  | good (r : Row)
  -- rows.Scan returns an error
  | scanFail
  -- stmt.Exec returns an error and writes nothing
  | execFail (r : Row)
  -- stmt.Exec succeeds, result.RowsAffected returns an error
  | affectedFail (r : Row)
deriving DecidableEq

/-- The errors returned by the functions of package `core`. -/
inductive Err where
  | openDatabase
  | recordCount
  | fileInfo
  | executeQuery
  | beginTx
  | prepare
  | scanRow
  | insertRow
  | rowsAffected
  | commit
deriving DecidableEq

/-- Result of `SQLiteCopier.executeInserts`: the named results `added`, `ignored`,
`err`, and the destination table as the open transaction sees it at return. -/
structure Tally where
  added : Nat
  ignored : Nat
  err : Option Err
  tx : Table
deriving DecidableEq

/-- The loop of `SQLiteCopier.executeInserts` (copier.go 154-176), started from the
current values of `added` and `ignored`.  The counters are Go `int`s; a cursor cannot
deliver `2^63` rows, so they are natural numbers here. -/
def executeInsertsLoop : List Fetch → Table → Nat → Nat → Tally
  | [], t, added, ignored => ⟨added, ignored, none, t⟩
  | .scanFail :: _, t, added, ignored => ⟨added, ignored, some .scanRow, t⟩
  | .execFail _ :: _, t, added, ignored => ⟨added, ignored, some .insertRow, t⟩
  | .affectedFail r :: _, t, added, ignored =>
      ⟨added, ignored, some .rowsAffected, (insertOrIgnore t r).1⟩
  | .good r :: rest, t, added, ignored =>
      let res := insertOrIgnore t r
      if res.2 = 0 then executeInsertsLoop rest res.1 added (ignored + 1)
      else executeInsertsLoop rest res.1 (added + 1) ignored

/-- The method `SQLiteCopier.executeInserts` (copier.go 153-177): both named results
start at zero. -/
def executeInserts (rows : List Fetch) (t : Table) : Tally :=
  executeInsertsLoop rows t 0 0

/-- Result of a counting drain: the count returned (or held in the local variable), the
error, and the destination table as the open transaction sees it. -/
structure Counted where
  count : Nat
  err : Option Err
  tx : Table
deriving DecidableEq

/-- The loop of `SQLiteQueryExecutor.ExecuteInserts` (query_executor.go 29-41): every
row whose `Exec` succeeds is counted, `RowsAffected` is never asked, and an error
returns the count `0`. -/
def ExecuteInsertsLoop : List Fetch → Table → Nat → Counted
  | [], t, count => ⟨count, none, t⟩
  | .scanFail :: _, t, _ => ⟨0, some .scanRow, t⟩
  | .execFail _ :: _, t, _ => ⟨0, some .insertRow, t⟩
  | .affectedFail r :: rest, t, count => ExecuteInsertsLoop rest (insertOrIgnore t r).1 (count + 1)
  | .good r :: rest, t, count => ExecuteInsertsLoop rest (insertOrIgnore t r).1 (count + 1)

/-- The method `SQLiteQueryExecutor.ExecuteInserts` (query_executor.go 27-42). -/
def ExecuteInserts (rows : List Fetch) (t : Table) : Counted :=
  ExecuteInsertsLoop rows t 0

/-- The loop of `TransferData` (core.go 54-66); `count` is the value of the local
variable when the loop is left. -/
def transferLoop : List Fetch → Table → Nat → Counted
  | [], t, count => ⟨count, none, t⟩
  | .scanFail :: _, t, count => ⟨count, some .scanRow, t⟩
  | .execFail _ :: _, t, count => ⟨count, some .insertRow, t⟩
  | .affectedFail r :: rest, t, count => transferLoop rest (insertOrIgnore t r).1 (count + 1)
  | .good r :: rest, t, count => transferLoop rest (insertOrIgnore t r).1 (count + 1)

/-! ## Part III: CopyData -/

/-- The steps of `CopyData`, in program order. -/
inductive Step where
  | connectSource
  | connectDest
  | countSource
  | countDestBefore
  | sizeSource
  | sizeDestBefore
  | query
  | beginTx
  | prepare
  | drain
  | commit
  | countDestAfter
  | sizeDestAfter
  | report
deriving DecidableEq

/-- The world one invocation runs in: the rows the source cursor delivers, whether the
iteration ended because `rows.Next()` failed (`rows.Err()` is non-nil) instead of at the
end of the result set, the destination table, which engine calls fail, and the
measurements the engine and the file system return.  `fault` is consulted for the engine
call behind a step; the drain fails through the cursor and printing the report does not
fail, so `fault .drain` and `fault .report` are never read.  No function of package
`core` calls `rows.Err()`, so no definition below reads `cursorErr`.  Source and
destination are distinct files. -/
structure World where
  cursor : List Fetch
  cursorErr : Bool
  dest : Table
  fault : Step → Bool
  sourceCount : Nat
  sourceSize : Int
  destSizeBefore : Int
  destSizeAfter : Int

/-- The values printed by the report of `CopyData` (copier.go 115-131). -/
structure Report where
  sourceCount : Nat
  destCountBefore : Nat
  destCountAfter : Nat
  destCountChange : Int
  sourceSize : Int
  destSizeBefore : Int
  destSizeAfter : Int
  destSizeChange : Int
  processed : Nat
  added : Nat
  ignored : Nat
deriving DecidableEq

/-- What one invocation of `CopyData` leaves behind: the returned error, the
destination table in the file, the report on standard output (`none`: nothing was
written), the steps performed, whether the deferred function called `tx.Rollback`, and
the value of `committed` at return. -/
structure Outcome where
  err : Option Err
  dest : Table
  report : Option Report
  steps : List Step
  rolledBack : Bool
  committed : Bool
deriving DecidableEq

/-- An early `return err` of `CopyData`: nothing was committed and nothing printed. -/
def abort (w : World) (e : Err) (steps : List Step) (rolledBack : Bool) : Outcome :=
  ⟨some e, w.dest, none, steps, rolledBack, false⟩

/-- The method `SQLiteCopier.CopyData` (copier.go 31-134). -/
def CopyData (w : World) : Outcome :=
  let s1 := [Step.connectSource]
  if w.fault .connectSource then abort w .openDatabase s1 false else
  let s2 := s1 ++ [.connectDest]
  if w.fault .connectDest then abort w .openDatabase s2 false else
  let s3 := s2 ++ [.countSource]
  if w.fault .countSource then abort w .recordCount s3 false else
  let s4 := s3 ++ [.countDestBefore]
  if w.fault .countDestBefore then abort w .recordCount s4 false else
  let destCountBefore := w.dest.length
  let s5 := s4 ++ [.sizeSource]
  if w.fault .sizeSource then abort w .fileInfo s5 false else
  let s6 := s5 ++ [.sizeDestBefore]
  if w.fault .sizeDestBefore then abort w .fileInfo s6 false else
  let s7 := s6 ++ [.query]
  if w.fault .query then abort w .executeQuery s7 false else
  let s8 := s7 ++ [.beginTx]
  if w.fault .beginTx then abort w .beginTx s8 false else
  -- from here on the deferred function calls tx.Rollback unless committed is true
  let s9 := s8 ++ [.prepare]
  if w.fault .prepare then abort w .prepare s9 true else
  let s10 := s9 ++ [.drain]
  let d := executeInserts w.cursor w.dest
  match d.err with
  | some e => abort w e s10 true
  | none =>
    let s11 := s10 ++ [.commit]
    if w.fault .commit then abort w .commit s11 true else
    -- committed = true: the table of the transaction is now the table of the file
    let s12 := s11 ++ [.countDestAfter]
    if w.fault .countDestAfter then ⟨some .recordCount, d.tx, none, s12, false, true⟩ else
    let destCountAfter := d.tx.length
    let s13 := s12 ++ [.sizeDestAfter]
    if w.fault .sizeDestAfter then ⟨some .fileInfo, d.tx, none, s13, false, true⟩ else
    let r : Report :=
      { sourceCount := w.sourceCount
        destCountBefore := destCountBefore
        destCountAfter := destCountAfter
        destCountChange := (destCountAfter : Int) - (destCountBefore : Int)
        sourceSize := w.sourceSize
        destSizeBefore := w.destSizeBefore
        destSizeAfter := w.destSizeAfter
        destSizeChange := wrap64 (w.destSizeAfter - w.destSizeBefore)
        processed := d.added + d.ignored
        added := d.added
        ignored := d.ignored }
    ⟨none, d.tx, some r, s13 ++ [.report], false, true⟩

/-- The fallible steps of `CopyData`, in program order. -/
def fallibleSteps : List Step :=
  [.connectSource, .connectDest, .countSource, .countDestBefore, .sizeSource,
   .sizeDestBefore, .query, .beginTx, .prepare, .drain, .commit, .countDestAfter,
   .sizeDestAfter]

/-- The fallible steps that come before a step in program order. -/
def stepsBefore (s : Step) : List Step :=
  fallibleSteps.takeWhile (fun t => t != s)

/-- Whether a step hands an error to `CopyData` when it is run in the world: the drain
when `executeInserts` returns an error on the cursor, an engine call when the world says
so. -/
def stepReturnsError (w : World) : Step → Bool
  | .drain => (executeInserts w.cursor w.dest).err.isSome
  | .report => false
  | s => w.fault s

/-- Whether a step fails when it is run in the world.  The drain fails when a row
cannot be scanned or inserted, when its rows affected cannot be read, or when the
iteration over the cursor itself fails; an engine call fails when the world says so. -/
def stepFails (w : World) : Step → Bool
  | .drain => w.cursorErr || (executeInserts w.cursor w.dest).err.isSome
  | .report => false
  | s => w.fault s

/-- What `TransferData` leaves behind: the returned error, the destination table in the
file and the logged `records_transferred` (`none`: the line was not logged). -/
structure Transfer where
  err : Option Err
  dest : Table
  logged : Option Nat
deriving DecidableEq

/-- The function `TransferData` (core.go 17-74). -/
def TransferData (w : World) : Transfer :=
  if w.fault .connectSource then ⟨some .openDatabase, w.dest, none⟩ else
  if w.fault .connectDest then ⟨some .openDatabase, w.dest, none⟩ else
  if w.fault .query then ⟨some .executeQuery, w.dest, none⟩ else
  if w.fault .beginTx then ⟨some .beginTx, w.dest, none⟩ else
  if w.fault .prepare then ⟨some .prepare, w.dest, none⟩ else
  let c := transferLoop w.cursor w.dest 0
  match c.err with
  | some e => ⟨some e, w.dest, none⟩
  | none =>
    if w.fault .commit then ⟨some .commit, w.dest, none⟩ else
    ⟨none, c.tx, some c.count⟩

/-- Whether the body of a drain loop meets a `rows.Scan` or a `stmt.Exec` error on the
row. -/
def scanOrInsertError : Fetch → Bool
  | .scanFail => true
  | .execFail _ => true
  | _ => false

/-! ### Example data -/

/-- First row of the two-row scenario. -/
def rowA : Row := ⟨"http://a.com", "A", "2024-01-01"⟩

/-- Second row of the two-row scenario. -/
def rowB : Row := ⟨"http://b.com", "B", "2024-01-02"⟩

/-- A world in which no engine call fails. -/
def quiet : Step → Bool := fun _ => false

/-- Two rows copied into an empty destination. -/
def worldFresh : World :=
  ⟨[.good rowA, .good rowB], false, [], quiet, 2, 8192, 8192, 12288⟩

/-- Two rows copied into a destination that already holds the first url. -/
def worldOverlap : World :=
  ⟨[.good rowA, .good rowB], false, [⟨"http://a.com", "old", "2023-12-31"⟩], quiet, 2, 8192, 8192,
    8192⟩

/-- Two rows copied into a destination that already holds both. -/
def worldSame : World :=
  ⟨[.good rowA, .good rowB], false, [rowA, rowB], quiet, 2, 8192, 8192, 8192⟩

/-- A cursor whose second row cannot be scanned, in front of an empty destination. -/
def worldBroken : World :=
  ⟨[.good rowA, .scanFail, .good rowB], false, [], quiet, 3, 8192, 8192, 8192⟩

/-- The second run of the overlap scenario: same source, the destination the first run
left behind. -/
def worldAgain : World :=
  ⟨worldOverlap.cursor, false, (CopyData worldOverlap).dest, quiet, 2, 8192, 8192, 8192⟩

/-- A source of two rows whose cursor delivers the first row and then fails inside
`rows.Next()` (an I/O error or a corrupt page while stepping), in front of an empty
destination. -/
def worldCut : World :=
  ⟨[.good rowA], true, [], quiet, 2, 8192, 8192, 12288⟩

/-! ## Lemmas -/

/-! ### formatSize -/

theorem scaleLoop_stop (n div : Int) (exp : Nat) (h : n < 1024) :
    scaleLoop n div exp = (div, exp) := by
  rw [scaleLoop]
  simp only [unit]
  rw [dif_neg (by omega)]

theorem scaleLoop_step (n div : Int) (exp : Nat) (h : 1024 ≤ n) :
    scaleLoop n div exp = scaleLoop (n / 1024) (wrap64 (div * 1024)) (exp + 1) := by
  rw [scaleLoop]
  simp only [unit]
  rw [dif_pos (by omega), Int.tdiv_eq_ediv (by omega) (by decide)]

theorem wrap64_id (x : Int) (h0 : -2 ^ 63 ≤ x) (h1 : x < 2 ^ 63) : wrap64 x = x := by
  unfold wrap64
  omega

theorem scaleLoop_spec (k : Nat) : ∀ (n div : Int) (exp : Nat),
    0 < div → div * 1024 ^ k < 2 ^ 63 → n < 1024 ^ (k + 1) → (1 ≤ k → 1024 ^ k ≤ n) →
    scaleLoop n div exp = (div * 1024 ^ k, exp + k) := by
  induction k with
  | zero =>
    intro n div exp _ _ hn _
    rw [scaleLoop_stop n div exp (by simpa using hn)]
    simp
  | succ k ih =>
    intro n div exp hd hmax hn hlo
    have hlo1 : (1024 : Int) ^ (k + 1) ≤ n := hlo (by omega)
    have hp : (0 : Int) < 1024 ^ k := by positivity
    have h1024 : (1024 : Int) ≤ n := by
      have : (1024 : Int) ^ (k + 1) = 1024 ^ k * 1024 := pow_succ _ _
      nlinarith
    rw [scaleLoop_step n div exp h1024]
    have hdm : div * 1024 < 2 ^ 63 := by
      have : (1024 : Int) ^ (k + 1) = 1024 ^ k * 1024 := pow_succ _ _
      nlinarith
    rw [wrap64_id (div * 1024) (by omega) hdm]
    rw [ih (n / 1024) (div * 1024) (exp + 1) (by omega)]
    · rw [pow_succ]; congr 1
      · ring
      · omega
    · rw [pow_succ] at hmax; linarith [mul_assoc div (1024 ^ k) (1024 : Int), mul_comm ((1024:Int)^k) 1024, mul_assoc div (1024:Int) (1024 ^ k)]
    · rw [pow_succ] at hn
      exact Int.ediv_lt_of_lt_mul (by decide) hn
    · intro _
      rw [pow_succ] at hlo1
      exact Int.le_ediv_of_mul_le (by decide) hlo1

theorem toFloat64_small (x : Nat) (h : x < 2 ^ 53) : toFloat64 x = x := by
  unfold toFloat64
  by_cases hx : x = 0
  · subst hx; simp [Nat.log2]
  · have : Nat.log2 x < 53 := (Nat.log2_lt hx).2 h
    simp only []
    rw [if_pos (by omega)]

theorem toFloat64_near (x : Nat) (h : x < 2 ^ 63) :
    toFloat64 x ≤ x + 512 ∧ x ≤ toFloat64 x + 512 := by
  by_cases hs : x < 2 ^ 53
  · rw [toFloat64_small x hs]; omega
  · have hx : x ≠ 0 := by intro h0; subst h0; simp at hs
    have h1 : Nat.log2 x < 63 := (Nat.log2_lt hx).2 h
    have h2 : ¬ Nat.log2 x < 53 := fun hc => hs ((Nat.log2_lt hx).1 hc)
    unfold toFloat64
    simp only []
    generalize Nat.log2 x = j at h1 h2
    rw [if_neg (by omega)]
    have hj : 53 ≤ j := by omega
    interval_cases j <;> simp only [Nat.reduceAdd, Nat.reduceSub, Nat.reducePow] <;>
      split <;> omega

theorem tenths_near (num den : Nat) (hd : 0 < den) :
    2 * (tenths num den * den) ≤ 20 * num + den ∧ 20 * num ≤ 2 * (tenths num den * den) + den := by
  unfold tenths
  simp only []
  have hdm := Nat.div_add_mod (10 * num) den
  have hlt := Nat.mod_lt (10 * num) hd
  generalize 10 * num / den = q at *
  generalize 10 * num % den = r at *
  have e : den * q = q * den := Nat.mul_comm _ _
  split
  · rw [Nat.add_mul]; omega
  · omega

theorem scaleLoop_formatSize (b : Int) (k : Nat) (hk : 1 ≤ k) (hlo : 1024 ^ k ≤ b)
    (hhi : b < 1024 ^ (k + 1)) (hmax : b < 2 ^ 63) :
    scaleLoop (b.tdiv unit) unit 0 = (1024 ^ k, k - 1) := by
  obtain ⟨j, rfl⟩ : ∃ j, k = j + 1 := ⟨k - 1, by omega⟩
  have hb : (1024 : Int) ≤ b := by
    have h1 : (1024 : Int) ^ (j + 1) = 1024 ^ j * 1024 := pow_succ _ _
    have h2 : (0 : Int) < 1024 ^ j := by positivity
    nlinarith
  have e : (1024 : Int) * 1024 ^ j = 1024 ^ (j + 1) := by rw [pow_succ]; ring
  simp only [unit]
  rw [Int.tdiv_eq_ediv (by omega) (by decide)]
  rw [scaleLoop_spec j (b / 1024) 1024 0 (by decide) (by rw [e]; omega)]
  · simp [e]
  · rw [pow_succ] at hhi
    exact Int.ediv_lt_of_lt_mul (by decide) hhi
  · intro _
    rw [pow_succ] at hlo
    exact Int.le_ediv_of_mul_le (by decide) hlo

theorem exponent_le_six (b : Int) (k : Nat) (hlo : 1024 ^ k ≤ b) (hmax : b < 2 ^ 63) : k ≤ 6 := by
  by_contra hk
  have h7 : (1024 : Int) ^ 7 ≤ 1024 ^ k := pow_le_pow_right₀ (by decide) (by omega)
  have : (1024 : Int) ^ 7 = 2 ^ 70 := by norm_num
  have : (2 : Int) ^ 63 < 2 ^ 70 := by norm_num
  omega

theorem exponent_exists (b : Int) (hb : 1024 ≤ b) (hmax : b < 2 ^ 63) :
    ∃ k : Nat, 1 ≤ k ∧ k ≤ 6 ∧ 1024 ^ k ≤ b ∧ b < 1024 ^ (k + 1) := by
  by_cases h2 : b < 1024 ^ 2
  · exact ⟨1, by decide, by decide, by simpa using hb, h2⟩
  by_cases h3 : b < 1024 ^ 3
  · exact ⟨2, by decide, by decide, by omega, h3⟩
  by_cases h4 : b < 1024 ^ 4
  · exact ⟨3, by decide, by decide, by omega, h4⟩
  by_cases h5 : b < 1024 ^ 5
  · exact ⟨4, by decide, by decide, by omega, h5⟩
  by_cases h6 : b < 1024 ^ 6
  · exact ⟨5, by decide, by decide, by omega, h6⟩
  · refine ⟨6, by decide, by decide, by omega, ?_⟩
    have : (2 : Int) ^ 63 < 1024 ^ 7 := by norm_num
    omega

theorem formatSize_small (b : Int) (h : b < 1024) :
    formatSize b = some (toString b ++ " B") := by
  unfold formatSize
  simp only [unit]
  rw [if_pos h]

theorem formatSize_scaled (b : Int) (k : Nat) (hk : 1 ≤ k) (hlo : 1024 ^ k ≤ b)
    (hhi : b < 1024 ^ (k + 1)) (hmax : b < 2 ^ 63) :
    ∃ u, binaryUnits[k - 1]? = some u ∧
      formatSize b = some (oneDecimal (tenths (toFloat64 b.toNat) (1024 ^ k)) ++ " " ++ u) := by
  have hs := scaleLoop_formatSize b k hk hlo hhi hmax
  have hk6 := exponent_le_six b k hlo hmax
  have hb : ¬ b < unit := by
    have h1 : (1024 : Int) ^ 1 ≤ 1024 ^ k := pow_le_pow_right₀ (by decide) hk
    simp only [unit]; omega
  unfold formatSize
  rw [if_neg hb, hs]
  simp only [sprintfQuotient]
  have hd : ((1024 : Int) ^ k).toNat = 1024 ^ k := by
    have hc : ((1024 : Int) ^ k) = (((1024 : Nat) ^ k : Nat) : Int) := by norm_cast
    rw [hc, Int.toNat_natCast]
  rw [hd]
  interval_cases k
  · exact ⟨"KB", rfl, by simp [unitLetter, String.append_assoc]; rfl⟩
  · exact ⟨"MB", rfl, by simp [unitLetter, String.append_assoc]; rfl⟩
  · exact ⟨"GB", rfl, by simp [unitLetter, String.append_assoc]; rfl⟩
  · exact ⟨"TB", rfl, by simp [unitLetter, String.append_assoc]; rfl⟩
  · exact ⟨"PB", rfl, by simp [unitLetter, String.append_assoc]; rfl⟩
  · exact ⟨"EB", rfl, by simp [unitLetter, String.append_assoc]; rfl⟩

theorem tenths_quotient (x k : Nat) (hk : 1 ≤ k) (hlo : 1024 ^ k ≤ x)
    (hhi : x < 1024 ^ (k + 1)) (hmax : x < 2 ^ 63) :
    10 * x < tenths (toFloat64 x) (1024 ^ k) * 1024 ^ k + 1024 ^ k ∧
    tenths (toFloat64 x) (1024 ^ k) * 1024 ^ k < 10 * x + 1024 ^ k := by
  have hk6 : k ≤ 6 := by
    by_contra hc
    have h7 : (1024 : Nat) ^ 7 ≤ 1024 ^ k := Nat.pow_le_pow_right (by decide) (by omega)
    have : (1024 : Nat) ^ 7 = 2 ^ 70 := by norm_num
    have : (2 : Nat) ^ 63 < 2 ^ 70 := by norm_num
    omega
  have hn := tenths_near (toFloat64 x) (1024 ^ k) (by positivity)
  have hf := toFloat64_near x hmax
  have hfs := toFloat64_small x
  generalize tenths (toFloat64 x) (1024 ^ k) = t at hn ⊢
  generalize toFloat64 x = f at hn hf hfs
  interval_cases k <;> norm_num at hn hlo hhi hmax hfs ⊢ <;>
    omega

theorem log2_eq_of_bounds (x j : Nat) (h1 : 2 ^ j ≤ x) (h2 : x < 2 ^ (j + 1)) :
    Nat.log2 x = j := by
  have hx : x ≠ 0 := by
    have : 0 < 2 ^ j := by positivity
    omega
  have ha : Nat.log2 x < j + 1 := (Nat.log2_lt hx).2 h2
  have hb : ¬ Nat.log2 x < j := fun hc => by
    have := (Nat.log2_lt hx).1 hc
    omega
  omega

theorem toFloat64_large (x j : Nat) (h1 : 2 ^ j ≤ x) (h2 : x < 2 ^ (j + 1)) (h53 : 53 ≤ j) :
    toFloat64 x =
      (if 2 ^ (j - 53) < x % 2 ^ (j - 52) ∨
          (x % 2 ^ (j - 52) = 2 ^ (j - 53) ∧ x / 2 ^ (j - 52) % 2 = 1)
        then x / 2 ^ (j - 52) + 1 else x / 2 ^ (j - 52)) * 2 ^ (j - 52) := by
  unfold toFloat64
  simp only []
  rw [log2_eq_of_bounds x j h1 h2, if_neg (by omega)]
  have e1 : j + 1 - 53 = j - 52 := by omega
  have e2 : j - 52 - 1 = j - 53 := by omega
  rw [e1, e2]

theorem toFloat64_exact (x : Nat) (hx : 0 < x) (hmax : x < 2 ^ 63) :
    ∃ j : Nat, 2 ^ j ≤ x ∧ x < 2 ^ (j + 1) ∧ 2 ^ (j - 52) ∣ toFloat64 x ∧
      2 * toFloat64 x ≤ 2 * x + 2 ^ (j - 52) ∧ 2 * x ≤ 2 * toFloat64 x + 2 ^ (j - 52) ∧
      ((2 * toFloat64 x = 2 * x + 2 ^ (j - 52) ∨ 2 * x = 2 * toFloat64 x + 2 ^ (j - 52)) →
        toFloat64 x / 2 ^ (j - 52) % 2 = 0) := by
  have hx0 : x ≠ 0 := by omega
  have hlo : 2 ^ Nat.log2 x ≤ x := Nat.log2_self_le hx0
  have hhi : x < 2 ^ (Nat.log2 x + 1) := Nat.lt_log2_self
  have hj63 : Nat.log2 x < 63 := (Nat.log2_lt hx0).2 hmax
  generalize Nat.log2 x = j at hlo hhi hj63
  refine ⟨j, hlo, hhi, ?_⟩
  by_cases hs : j < 53
  · have hsmall : x < 2 ^ 53 :=
      lt_of_lt_of_le hhi (Nat.pow_le_pow_right (by decide) (by omega))
    have e : j - 52 = 0 := by omega
    rw [toFloat64_small x hsmall, e]
    simp only [pow_zero, one_dvd, true_and]
    omega
  · rw [toFloat64_large x j hlo hhi (by omega)]
    have hj : 53 ≤ j := by omega
    interval_cases j <;> simp only [Nat.reduceAdd, Nat.reduceSub, Nat.reducePow] at hlo hhi ⊢ <;>
      split <;> omega

theorem tenths_tie_even (num den : Nat) (hd : 0 < den)
    (h : 2 * (tenths num den * den) = 20 * num + den ∨
      20 * num = 2 * (tenths num den * den) + den) :
    tenths num den % 2 = 0 := by
  unfold tenths at h ⊢
  simp only [] at h ⊢
  have hdm := Nat.div_add_mod (10 * num) den
  have hlt := Nat.mod_lt (10 * num) hd
  generalize 10 * num / den = q at *
  generalize 10 * num % den = r at *
  have e : den * q = q * den := Nat.mul_comm _ _
  split at h
  · rename_i hc
    rw [if_pos hc]
    rw [Nat.add_mul] at h
    omega
  · rename_i hc
    rw [if_neg hc]
    omega

/-! ### The drain loops -/

theorem hasUrl_append (t : Table) (r : Row) (u : String) :
    hasUrl (t ++ [r]) u = (hasUrl t u || r.url == u) := by
  simp [hasUrl]

theorem hasUrl_insertOrIgnore_self (t : Table) (r : Row) :
    hasUrl (insertOrIgnore t r).1 r.url = true := by
  unfold insertOrIgnore
  by_cases h : hasUrl t r.url = true
  · simp [h]
  · simp [h, hasUrl_append]

theorem hasUrl_insertOrIgnore_mono (t : Table) (r : Row) (u : String)
    (h : hasUrl t u = true) : hasUrl (insertOrIgnore t r).1 u = true := by
  unfold insertOrIgnore
  by_cases hr : hasUrl t r.url = true
  · simp [hr, h]
  · simp [hr, hasUrl_append, h]

theorem insertOrIgnore_present (t : Table) (r : Row) (h : hasUrl t r.url = true) :
    insertOrIgnore t r = (t, 0) := by
  simp [insertOrIgnore, h]

theorem insertOrIgnore_absent (t : Table) (r : Row) (h : hasUrl t r.url = false) :
    insertOrIgnore t r = (t ++ [r], 1) := by
  simp [insertOrIgnore, h]

theorem insertOrIgnore_length (t : Table) (r : Row) :
    (insertOrIgnore t r).1.length = t.length + (insertOrIgnore t r).2 := by
  unfold insertOrIgnore
  by_cases h : hasUrl t r.url = true <;> simp [h]

theorem executeInsertsLoop_tally (rows : List Fetch) : ∀ (t : Table) (a i : Nat),
    (executeInsertsLoop rows t a i).err = none →
    (executeInsertsLoop rows t a i).added + (executeInsertsLoop rows t a i).ignored
      = a + i + rows.length := by
  induction rows with
  | nil => intro t a i _; simp [executeInsertsLoop]
  | cons f rest ih =>
    intro t a i h
    cases f with
    | scanFail => simp [executeInsertsLoop] at h
    | execFail r => simp [executeInsertsLoop] at h
    | affectedFail r => simp [executeInsertsLoop] at h
    | good r =>
      simp only [executeInsertsLoop] at h ⊢
      split
      · rename_i h0
        rw [if_pos h0] at h
        rw [ih _ _ _ h]; simp only [List.length_cons]; omega
      · rename_i h0
        rw [if_neg h0] at h
        rw [ih _ _ _ h]; simp only [List.length_cons]; omega

theorem executeInsertsLoop_count (rows : List Fetch) : ∀ (t : Table) (a i : Nat),
    (executeInsertsLoop rows t a i).err = none →
    (executeInsertsLoop rows t a i).tx.length + a
      = t.length + (executeInsertsLoop rows t a i).added := by
  induction rows with
  | nil => intro t a i _; simp [executeInsertsLoop]
  | cons f rest ih =>
    intro t a i h
    cases f with
    | scanFail => simp [executeInsertsLoop] at h
    | execFail r => simp [executeInsertsLoop] at h
    | affectedFail r => simp [executeInsertsLoop] at h
    | good r =>
      have hl := insertOrIgnore_length t r
      simp only [executeInsertsLoop] at h ⊢
      split
      · rename_i h0
        rw [if_pos h0] at h
        have := ih _ _ _ h
        omega
      · rename_i h0
        rw [if_neg h0] at h
        have := ih _ _ _ h
        have h1 : (insertOrIgnore t r).2 = 1 := by
          unfold insertOrIgnore at h0 ⊢
          by_cases hp : hasUrl t r.url = true <;> simp [hp] at h0 ⊢
        omega

theorem executeInsertsLoop_good_ok (rows : List Row) : ∀ (t : Table) (a i : Nat),
    (executeInsertsLoop (rows.map Fetch.good) t a i).err = none := by
  induction rows with
  | nil => intro t a i; simp [executeInsertsLoop]
  | cons r rest ih =>
    intro t a i
    simp only [List.map_cons, executeInsertsLoop]
    split
    · exact ih _ _ _
    · exact ih _ _ _

theorem executeInsertsLoop_mono (rows : List Fetch) (u : String) : ∀ (t : Table) (a i : Nat),
    hasUrl t u = true → hasUrl (executeInsertsLoop rows t a i).tx u = true := by
  induction rows with
  | nil => intro t a i h; simpa [executeInsertsLoop] using h
  | cons f rest ih =>
    intro t a i h
    cases f with
    | scanFail => simpa [executeInsertsLoop] using h
    | execFail r => simpa [executeInsertsLoop] using h
    | affectedFail r =>
      simpa [executeInsertsLoop] using hasUrl_insertOrIgnore_mono t r u h
    | good r =>
      simp only [executeInsertsLoop]
      split
      · exact ih _ _ _ (hasUrl_insertOrIgnore_mono t r u h)
      · exact ih _ _ _ (hasUrl_insertOrIgnore_mono t r u h)

theorem executeInsertsLoop_stored (rows : List Fetch) : ∀ (t : Table) (a i : Nat),
    (executeInsertsLoop rows t a i).err = none →
    ∀ f ∈ rows, ∃ r, f = Fetch.good r ∧ hasUrl (executeInsertsLoop rows t a i).tx r.url = true := by
  induction rows with
  | nil => intro t a i _ f hf; simp at hf
  | cons f rest ih =>
    intro t a i h
    cases f with
    | scanFail => simp [executeInsertsLoop] at h
    | execFail r => simp [executeInsertsLoop] at h
    | affectedFail r => simp [executeInsertsLoop] at h
    | good r =>
      simp only [executeInsertsLoop] at h ⊢
      intro g hg
      rcases List.mem_cons.1 hg with rfl | hg
      · refine ⟨r, rfl, ?_⟩
        split
        · exact executeInsertsLoop_mono _ _ _ _ _ (hasUrl_insertOrIgnore_self t r)
        · exact executeInsertsLoop_mono _ _ _ _ _ (hasUrl_insertOrIgnore_self t r)
      · split
        · rename_i h0
          rw [if_pos h0] at h
          exact ih _ _ _ h g hg
        · rename_i h0
          rw [if_neg h0] at h
          exact ih _ _ _ h g hg

theorem executeInsertsLoop_all_present (rows : List Fetch) (t : Table) : ∀ (a i : Nat),
    (∀ f ∈ rows, ∃ r, f = Fetch.good r ∧ hasUrl t r.url = true) →
    executeInsertsLoop rows t a i = ⟨a, i + rows.length, none, t⟩ := by
  induction rows with
  | nil => intro a i _; simp [executeInsertsLoop]
  | cons f rest ih =>
    intro a i h
    obtain ⟨r, rfl, hr⟩ := h f (List.mem_cons_self _ _)
    simp only [executeInsertsLoop, insertOrIgnore_present t r hr, if_true]
    rw [ih _ _ (fun g hg => h g (List.mem_cons_of_mem _ hg))]
    simp only [List.length_cons, Tally.mk.injEq, and_true, true_and]
    omega

theorem executeInsertsLoop_all_new (rows : List Row) : ∀ (t : Table) (a i : Nat),
    (rows.map Row.url).Nodup → (∀ r ∈ rows, hasUrl t r.url = false) →
    executeInsertsLoop (rows.map Fetch.good) t a i = ⟨a + rows.length, i, none, t ++ rows⟩ := by
  induction rows with
  | nil => intro t a i _ _; simp [executeInsertsLoop]
  | cons r rest ih =>
    intro t a i hn hno
    have hr : hasUrl t r.url = false := hno r (List.mem_cons_self _ _)
    rw [List.map_cons, List.nodup_cons] at hn
    simp only [List.map_cons, executeInsertsLoop, insertOrIgnore_absent t r hr]
    rw [if_neg (by decide), ih _ _ _ hn.2]
    · simp only [List.length_cons, List.append_assoc, List.singleton_append, Tally.mk.injEq,
        and_true]
      omega
    · intro s hs
      rw [hasUrl_append, hno s (List.mem_cons_of_mem _ hs)]
      have hne : r.url ≠ s.url := fun e => hn.1 (e ▸ List.mem_map_of_mem Row.url hs)
      simp [hne]

theorem ExecuteInsertsLoop_good (rows : List Row) : ∀ (t : Table) (c a i : Nat),
    ExecuteInsertsLoop (rows.map Fetch.good) t c
      = ⟨c + rows.length, none, (executeInsertsLoop (rows.map Fetch.good) t a i).tx⟩ := by
  induction rows with
  | nil => intro t c a i; simp [ExecuteInsertsLoop, executeInsertsLoop]
  | cons r rest ih =>
    intro t c a i
    simp only [List.map_cons, ExecuteInsertsLoop, executeInsertsLoop]
    split
    · rw [ih _ _ a (i + 1)]; simp only [List.length_cons, Counted.mk.injEq, and_true]; omega
    · rw [ih _ _ (a + 1) i]; simp only [List.length_cons, Counted.mk.injEq, and_true]; omega

theorem transferLoop_good (rows : List Row) : ∀ (t : Table) (c a i : Nat),
    transferLoop (rows.map Fetch.good) t c
      = ⟨c + rows.length, none, (executeInsertsLoop (rows.map Fetch.good) t a i).tx⟩ := by
  induction rows with
  | nil => intro t c a i; simp [transferLoop, executeInsertsLoop]
  | cons r rest ih =>
    intro t c a i
    simp only [List.map_cons, transferLoop, executeInsertsLoop]
    split
    · rw [ih _ _ a (i + 1)]; simp only [List.length_cons, Counted.mk.injEq, and_true]; omega
    · rw [ih _ _ (a + 1) i]; simp only [List.length_cons, Counted.mk.injEq, and_true]; omega

theorem executeInsertsLoop_fails (pre : List Row) (f : Fetch) (rest : List Fetch)
    (hf : ∀ r, f ≠ Fetch.good r) : ∀ (t : Table) (a i : Nat),
    ∃ e, (executeInsertsLoop (pre.map Fetch.good ++ f :: rest) t a i).err = some e ∧
      (executeInsertsLoop (pre.map Fetch.good ++ f :: rest) t a i).added
        + (executeInsertsLoop (pre.map Fetch.good ++ f :: rest) t a i).ignored
        = a + i + pre.length := by
  induction pre with
  | nil =>
    intro t a i
    cases f with
    | good r => exact absurd rfl (hf r)
    | scanFail => exact ⟨.scanRow, by simp [executeInsertsLoop]⟩
    | execFail r => exact ⟨.insertRow, by simp [executeInsertsLoop]⟩
    | affectedFail r => exact ⟨.rowsAffected, by simp [executeInsertsLoop]⟩
  | cons r pre ih =>
    intro t a i
    simp only [List.map_cons, List.cons_append, executeInsertsLoop]
    split
    · obtain ⟨e, he, hs⟩ := ih (insertOrIgnore t r).1 a (i + 1)
      exact ⟨e, he, hs.trans (by simp only [List.length_cons]; omega)⟩
    · obtain ⟨e, he, hs⟩ := ih (insertOrIgnore t r).1 (a + 1) i
      exact ⟨e, he, hs.trans (by simp only [List.length_cons]; omega)⟩

/-! ### CopyData -/

theorem CopyData_first_failure (w : World) (s : Step) (hs : s ∈ fallibleSteps)
    (hpre : ∀ t ∈ stepsBefore s, stepReturnsError w t = false) (hf : stepReturnsError w s = true) :
    (CopyData w).err.isSome = true ∧ (CopyData w).report = none ∧
      (CopyData w).steps = stepsBefore s ++ [s] := by
  cases hd : (executeInserts w.cursor w.dest).err <;>
    cases s <;> simp [fallibleSteps] at hs <;>
    simp [stepsBefore, fallibleSteps, stepReturnsError, hd] at hpre hf <;>
    simp [CopyData, abort, hpre, hf, hd, stepsBefore, fallibleSteps]

theorem CopyData_no_failure (w : World) (h : ∀ s ∈ fallibleSteps, stepReturnsError w s = false) :
    (CopyData w).err = none ∧ (CopyData w).report.isSome = true ∧
      (CopyData w).steps = fallibleSteps ++ [Step.report] ∧
      (CopyData w).dest = (executeInserts w.cursor w.dest).tx ∧
      (CopyData w).committed = true := by
  simp [fallibleSteps, stepReturnsError] at h
  simp [CopyData, abort, h, fallibleSteps]

theorem first_failing_step (p : Step → Bool) (l : List Step) (h : ∃ s ∈ l, p s = true) :
    ∃ s ∈ l, p s = true ∧ ∀ t ∈ l.takeWhile (fun t => t != s), p t = false := by
  induction l with
  | nil => simp at h
  | cons a l ih =>
    by_cases ha : p a = true
    · exact ⟨a, List.mem_cons_self _ _, ha, by simp⟩
    · obtain ⟨s, hs, hps⟩ := h
      have hsl : s ∈ l := by
        rcases List.mem_cons.1 hs with rfl | hsl
        · exact absurd hps ha
        · exact hsl
      obtain ⟨s1, hs1, hp1, hbefore⟩ := ih ⟨s, hsl, hps⟩
      have hne : a ≠ s1 := fun e => ha (e ▸ hp1)
      refine ⟨s1, List.mem_cons_of_mem _ hs1, hp1, ?_⟩
      intro t ht
      rw [List.takeWhile_cons_of_pos (by simpa using hne)] at ht
      rcases List.mem_cons.1 ht with rfl | ht
      · simpa using ha
      · exact hbefore t ht

theorem CopyData_cases (w : World) :
    ((∀ s ∈ fallibleSteps, stepReturnsError w s = false) ∧ (CopyData w).err = none ∧
        (CopyData w).report.isSome = true) ∨
    ((∃ s ∈ fallibleSteps, stepReturnsError w s = true) ∧ (CopyData w).err.isSome = true ∧
        (CopyData w).report = none) := by
  by_cases hex : ∃ s ∈ fallibleSteps, stepReturnsError w s = true
  · obtain ⟨s, hs, hf, hpre⟩ := first_failing_step (stepReturnsError w) fallibleSteps hex
    have := CopyData_first_failure w s hs hpre hf
    exact Or.inr ⟨hex, this.1, this.2.1⟩
  · have hall : ∀ s ∈ fallibleSteps, stepReturnsError w s = false := by
      intro s hs
      cases hv : stepReturnsError w s
      · rfl
      · exact absurd ⟨s, hs, hv⟩ hex
    have := CopyData_no_failure w hall
    exact Or.inl ⟨hall, this.1, this.2.1⟩

theorem CopyData_dest (w : World) :
    (CopyData w).dest = w.dest ∨ (CopyData w).dest = (executeInserts w.cursor w.dest).tx := by
  rcases CopyData_cases w with ⟨hall, _, _⟩ | ⟨hex, _, _⟩
  · exact Or.inr (CopyData_no_failure w hall).2.2.2.1
  · obtain ⟨s, hs, hf, hpre⟩ := first_failing_step (stepReturnsError w) fallibleSteps hex
    cases hd : (executeInserts w.cursor w.dest).err <;>
      cases s <;> simp [fallibleSteps] at hs <;>
      simp [stepsBefore, fallibleSteps, stepReturnsError, hd] at hpre hf <;>
      simp [CopyData, abort, hpre, hf, hd]

theorem CopyData_success (w : World) (h : (CopyData w).err = none) :
    (executeInserts w.cursor w.dest).err = none ∧
    (CopyData w).dest = (executeInserts w.cursor w.dest).tx ∧
    ∃ r, (CopyData w).report = some r ∧
      r.added = (executeInserts w.cursor w.dest).added ∧
      r.ignored = (executeInserts w.cursor w.dest).ignored ∧
      r.destCountBefore = w.dest.length ∧
      r.destCountAfter = (executeInserts w.cursor w.dest).tx.length ∧
      r.destCountChange = (r.destCountAfter : Int) - (r.destCountBefore : Int) := by
  rcases CopyData_cases w with ⟨hall, _, _⟩ | ⟨_, he, _⟩
  · simp [fallibleSteps, stepReturnsError] at hall
    simp [CopyData, abort, hall]
  · rw [h] at he; simp at he

theorem all_good_eq_map (rows : List Fetch) (h : ∀ f ∈ rows, ∃ r, f = Fetch.good r) :
    ∃ rs : List Row, rows = rs.map Fetch.good := by
  induction rows with
  | nil => exact ⟨[], rfl⟩
  | cons f rest ih =>
    obtain ⟨r, rfl⟩ := h f (List.mem_cons_self _ _)
    obtain ⟨rs, rfl⟩ := ih (fun g hg => h g (List.mem_cons_of_mem _ hg))
    exact ⟨r :: rs, rfl⟩

theorem tdiv_unit_small (b : Int) (h : b < 1024) : b.tdiv unit < 1024 := by
  simp only [unit]
  by_cases h0 : 0 ≤ b
  · rw [Int.tdiv_eq_ediv h0 (by decide)]; omega
  · have hneg : b.tdiv 1024 = -((-b).tdiv 1024) := by
      rw [Int.neg_tdiv, Int.neg_neg]
    rw [hneg, Int.tdiv_eq_ediv (by omega) (by decide)]
    omega

/-! ## Part IV: the properties -/

/-- C1: whenever `executeInserts` drains the cursor without a scan, insert or
rows-affected error, `added + ignored` is the number of rows read from the cursor,
whatever the destination table holds. -/
theorem executeInserts_added_plus_ignored (rows : List Fetch) (t : Table)
    (h : (executeInserts rows t).err = none) :
    (executeInserts rows t).added + (executeInserts rows t).ignored = rows.length := by
  have := executeInsertsLoop_tally rows t 0 0 h
  simpa [executeInserts] using this

/-- Witness for C1: a new row, a duplicate of a stored row and a repeated row. -/
theorem executeInserts_added_plus_ignored_witness :
    (executeInserts [.good rowB, .good rowA, .good rowB] [rowA]).err = none ∧
    (executeInserts [.good rowB, .good rowA, .good rowB] [rowA]).added
      + (executeInserts [.good rowB, .good rowA, .good rowB] [rowA]).ignored
      = [Fetch.good rowB, Fetch.good rowA, Fetch.good rowB].length :=
  ⟨by decide, executeInserts_added_plus_ignored _ _ (by decide)⟩

/-- C2: a successful `CopyData` prints a report whose destination counts differ by
exactly `added`, the tally returned by `executeInserts`; the destination table grows by
that many rows. -/
theorem CopyData_count_delta (w : World) (h : (CopyData w).err = none) :
    ∃ r, (CopyData w).report = some r ∧
      r.added = (executeInserts w.cursor w.dest).added ∧
      (r.destCountAfter : Int) - (r.destCountBefore : Int) = (r.added : Int) ∧
      r.destCountChange = (r.added : Int) ∧
      r.destCountBefore = w.dest.length ∧
      r.destCountAfter = (CopyData w).dest.length := by
  obtain ⟨hd, hdest, r, hr, ha, _, hb, hafter, hch⟩ := CopyData_success w h
  have hc := executeInsertsLoop_count w.cursor w.dest 0 0 hd
  simp only [Nat.add_zero] at hc
  have hc2 : (executeInserts w.cursor w.dest).tx.length
      = w.dest.length + (executeInserts w.cursor w.dest).added := hc
  refine ⟨r, hr, ha, ?_, ?_, hb, ?_⟩
  · rw [hafter, hb, ha, hc2]; push_cast; ring
  · rw [hch, hafter, hb, ha, hc2]; push_cast; ring
  · rw [hafter, hdest]

/-- Witness for C2: the rows a.com and b.com copied into a destination holding a.com
give `added = 1`, `ignored = 1` and the count goes from 1 to 2. -/
theorem CopyData_count_delta_witness :
    (CopyData worldOverlap).err = none ∧
    (∃ r, (CopyData worldOverlap).report = some r ∧
      r.added = (executeInserts worldOverlap.cursor worldOverlap.dest).added ∧
      (r.destCountAfter : Int) - (r.destCountBefore : Int) = (r.added : Int) ∧
      r.destCountChange = (r.added : Int) ∧
      r.destCountBefore = worldOverlap.dest.length ∧
      r.destCountAfter = (CopyData worldOverlap).dest.length) ∧
    (CopyData worldOverlap).report.map
      (fun r => (r.added, r.ignored, r.destCountBefore, r.destCountAfter)) = some (1, 1, 1, 2) :=
  ⟨by decide, CopyData_count_delta worldOverlap (by decide), by decide⟩

/-- C3: for source rows with pairwise distinct urls none of which is stored in the
destination, `executeInserts` returns `added` = the number of source rows and
`ignored = 0` without error, the rows are appended to the table, and a successful
`CopyData` reports these tallies and a destination count increased by exactly `added`. -/
theorem executeInserts_all_new (rows : List Row) (t : Table)
    (hset : (rows.map Row.url).Nodup) (hnew : ∀ r ∈ rows, hasUrl t r.url = false) :
    executeInserts (rows.map Fetch.good) t = ⟨rows.length, 0, none, t ++ rows⟩ ∧
    ∀ w : World, w.cursor = rows.map Fetch.good → w.dest = t → (CopyData w).err = none →
      (CopyData w).dest.length = t.length + rows.length ∧
      ∃ r, (CopyData w).report = some r ∧ r.added = rows.length ∧ r.ignored = 0 ∧
        r.destCountBefore = t.length ∧ r.destCountAfter = r.destCountBefore + r.added := by
  have hx : executeInserts (rows.map Fetch.good) t = ⟨rows.length, 0, none, t ++ rows⟩ := by
    have := executeInsertsLoop_all_new rows t 0 0 hset hnew
    simpa [executeInserts] using this
  refine ⟨hx, ?_⟩
  intro w hc hd h
  obtain ⟨_, hdest, r, hr, ha, hi, hb, hafter, _⟩ := CopyData_success w h
  rw [hc, hd, hx] at hdest ha hi hafter
  rw [hd] at hb
  simp only [List.length_append] at hafter
  refine ⟨by rw [hdest, List.length_append], r, hr, ha, hi, hb, ?_⟩
  rw [hafter, hb, ha]

/-- Witness for C3: the rows a.com and b.com copied into an empty destination give
`added = 2`, `ignored = 0` and the count goes from 0 to 2. -/
theorem executeInserts_all_new_witness :
    ([rowA, rowB].map Row.url).Nodup ∧ (∀ r ∈ [rowA, rowB], hasUrl [] r.url = false) ∧
    (executeInserts ([rowA, rowB].map Fetch.good) [] = ⟨2, 0, none, [] ++ [rowA, rowB]⟩ ∧
      ∀ w : World, w.cursor = [rowA, rowB].map Fetch.good → w.dest = [] →
        (CopyData w).err = none →
        (CopyData w).dest.length = ([] : Table).length + [rowA, rowB].length ∧
        ∃ r, (CopyData w).report = some r ∧ r.added = [rowA, rowB].length ∧ r.ignored = 0 ∧
          r.destCountBefore = ([] : Table).length ∧
          r.destCountAfter = r.destCountBefore + r.added) ∧
    (CopyData worldFresh).err = none ∧
    (CopyData worldFresh).report.map
      (fun r => (r.added, r.ignored, r.destCountBefore, r.destCountAfter)) = some (2, 0, 0, 2) :=
  ⟨by decide, by decide, executeInserts_all_new [rowA, rowB] [] (by decide) (by decide),
    by decide, by decide⟩

/-- C4: when every source url is already stored in the destination, `executeInserts`
returns `added = 0` and `ignored` = the number of source rows and leaves the table as
it was, and `CopyData` leaves the destination table, hence its row count, unchanged
whatever else happens in the run. -/
theorem executeInserts_all_duplicates (rows : List Row) (t : Table)
    (hdup : ∀ r ∈ rows, hasUrl t r.url = true) :
    executeInserts (rows.map Fetch.good) t = ⟨0, rows.length, none, t⟩ ∧
    ∀ w : World, w.cursor = rows.map Fetch.good → w.dest = t →
      (CopyData w).dest = t ∧ (CopyData w).dest.length = t.length ∧
      ∀ r, (CopyData w).report = some r →
        r.added = 0 ∧ r.ignored = rows.length ∧ r.destCountAfter = r.destCountBefore := by
  have hx : executeInserts (rows.map Fetch.good) t = ⟨0, rows.length, none, t⟩ := by
    have := executeInsertsLoop_all_present (rows.map Fetch.good) t 0 0 (by
      intro f hf
      obtain ⟨r, hr, rfl⟩ := List.mem_map.1 hf
      exact ⟨r, rfl, hdup r hr⟩)
    simpa [executeInserts] using this
  refine ⟨hx, ?_⟩
  intro w hc hd
  have hdest : (CopyData w).dest = t := by
    rcases CopyData_dest w with h | h
    · rw [h, hd]
    · rw [h, hc, hd, hx]
  refine ⟨hdest, by rw [hdest], ?_⟩
  intro r hr
  have hok : (CopyData w).err = none := by
    rcases CopyData_cases w with ⟨_, h, _⟩ | ⟨_, _, h⟩
    · exact h
    · rw [h] at hr; cases hr
  obtain ⟨_, _, r1, hr1, ha, hi, hb, hafter, _⟩ := CopyData_success w hok
  rw [hr] at hr1
  cases hr1
  rw [hc, hd, hx] at ha hi hafter
  rw [hd] at hb
  exact ⟨ha, hi, by rw [hafter, hb]⟩

/-- Witness for C4: the rows a.com and b.com copied into a destination holding both. -/
theorem executeInserts_all_duplicates_witness :
    (∀ r ∈ [rowA, rowB], hasUrl [rowA, rowB] r.url = true) ∧
    (executeInserts ([rowA, rowB].map Fetch.good) [rowA, rowB]
        = ⟨0, [rowA, rowB].length, none, [rowA, rowB]⟩ ∧
      ∀ w : World, w.cursor = [rowA, rowB].map Fetch.good → w.dest = [rowA, rowB] →
        (CopyData w).dest = [rowA, rowB] ∧
        (CopyData w).dest.length = [rowA, rowB].length ∧
        ∀ r, (CopyData w).report = some r →
          r.added = 0 ∧ r.ignored = [rowA, rowB].length ∧
          r.destCountAfter = r.destCountBefore) ∧
    (CopyData worldSame).report.map
      (fun r => (r.added, r.ignored, r.destCountBefore, r.destCountAfter)) = some (0, 2, 2, 2) :=
  ⟨by decide, executeInserts_all_duplicates [rowA, rowB] [rowA, rowB] (by decide), by decide⟩

/-- C5: idempotence.  When `CopyData` succeeds and is run a second time on the same
source and on the destination it left behind, the second drain adds nothing, the
destination table (hence its row count) is unchanged, a report of the second run shows
`added = 0` and equal counts, and the second run succeeds when no engine call fails. -/
theorem CopyData_idempotent (w w2 : World) (h1 : (CopyData w).err = none)
    (hc : w2.cursor = w.cursor) (hd : w2.dest = (CopyData w).dest) :
    (executeInserts w2.cursor w2.dest).added = 0 ∧
    (executeInserts w2.cursor w2.dest).err = none ∧
    (CopyData w2).dest = (CopyData w).dest ∧
    (CopyData w2).dest.length = (CopyData w).dest.length ∧
    (∀ r2, (CopyData w2).report = some r2 →
      r2.added = 0 ∧ r2.destCountAfter = r2.destCountBefore) ∧
    ((∀ s ∈ fallibleSteps, w2.fault s = false) →
      (CopyData w2).err = none ∧ (CopyData w2).report.isSome = true) := by
  obtain ⟨hd1, hdest1, _⟩ := CopyData_success w h1
  have hstored := executeInsertsLoop_stored w.cursor w.dest 0 0 hd1
  have hx : executeInserts w2.cursor w2.dest = ⟨0, w.cursor.length, none, w2.dest⟩ := by
    have := executeInsertsLoop_all_present w.cursor w2.dest 0 0 (by
      intro f hf
      obtain ⟨r, hr, hu⟩ := hstored f hf
      exact ⟨r, hr, by rw [hd, hdest1]; exact hu⟩)
    rw [hc]
    simpa [executeInserts] using this
  have hdest2 : (CopyData w2).dest = (CopyData w).dest := by
    rcases CopyData_dest w2 with h | h
    · rw [h, hd]
    · rw [h, hx, hd]
  refine ⟨by rw [hx], by rw [hx], hdest2, by rw [hdest2], ?_, ?_⟩
  · intro r2 hr2
    have hok : (CopyData w2).err = none := by
      rcases CopyData_cases w2 with ⟨_, h, _⟩ | ⟨_, _, h⟩
      · exact h
      · rw [h] at hr2; cases hr2
    obtain ⟨_, _, r, hr, ha, _, hb, hafter, _⟩ := CopyData_success w2 hok
    rw [hr2] at hr
    cases hr
    rw [hx] at ha hafter
    exact ⟨ha, by rw [hafter, hb]⟩
  · intro hq
    have hall : ∀ s ∈ fallibleSteps, stepReturnsError w2 s = false := by
      intro s hs
      have := hq s hs
      cases s <;> simp [stepReturnsError, hx] <;> exact this
    exact ⟨(CopyData_no_failure w2 hall).1, (CopyData_no_failure w2 hall).2.1⟩

/-- Witness for C5: the overlap scenario run twice. -/
theorem CopyData_idempotent_witness :
    (CopyData worldOverlap).err = none ∧ worldAgain.cursor = worldOverlap.cursor ∧
    worldAgain.dest = (CopyData worldOverlap).dest ∧
    ((executeInserts worldAgain.cursor worldAgain.dest).added = 0 ∧
      (executeInserts worldAgain.cursor worldAgain.dest).err = none ∧
      (CopyData worldAgain).dest = (CopyData worldOverlap).dest ∧
      (CopyData worldAgain).dest.length = (CopyData worldOverlap).dest.length ∧
      (∀ r2, (CopyData worldAgain).report = some r2 →
        r2.added = 0 ∧ r2.destCountAfter = r2.destCountBefore) ∧
      ((∀ s ∈ fallibleSteps, worldAgain.fault s = false) →
        (CopyData worldAgain).err = none ∧ (CopyData worldAgain).report.isSome = true)) ∧
    (CopyData worldAgain).report.map
      (fun r => (r.added, r.ignored, r.destCountBefore, r.destCountAfter)) = some (0, 2, 2, 2) :=
  ⟨by decide, rfl, rfl, CopyData_idempotent worldOverlap worldAgain (by decide) rfl rfl,
    by decide⟩

/-- C6: atomicity.  When the steps before the drain succeed and the drain meets a scan,
insert or rows-affected error after `pre.length` rows went through, `executeInserts`
returns an error, `CopyData` returns that error with `committed` still false, the
deferred function calls `tx.Rollback`, the commit is never attempted, nothing is
printed, and the destination table is the table from before the invocation. -/
theorem CopyData_drain_failure_rolls_back (w : World) (pre : List Row) (f : Fetch)
    (rest : List Fetch) (hsteps : ∀ s ∈ stepsBefore Step.drain, w.fault s = false)
    (hcur : w.cursor = pre.map Fetch.good ++ f :: rest) (hf : ∀ r, f ≠ Fetch.good r) :
    ∃ e, (executeInserts w.cursor w.dest).err = some e ∧
      (executeInserts w.cursor w.dest).added + (executeInserts w.cursor w.dest).ignored
        = pre.length ∧
      (CopyData w).err = some e ∧
      (CopyData w).committed = false ∧
      (CopyData w).rolledBack = true ∧
      Step.commit ∉ (CopyData w).steps ∧
      (CopyData w).report = none ∧
      (CopyData w).dest = w.dest ∧
      (CopyData w).dest.length = w.dest.length := by
  obtain ⟨e, he, hn⟩ := executeInsertsLoop_fails pre f rest hf w.dest 0 0
  have he1 : (executeInserts w.cursor w.dest).err = some e := by
    rw [hcur]; exact he
  have hn1 : (executeInserts w.cursor w.dest).added + (executeInserts w.cursor w.dest).ignored
      = pre.length := by
    rw [hcur]; exact hn.trans (by omega)
  simp [stepsBefore, fallibleSteps] at hsteps
  refine ⟨e, he1, hn1, ?_⟩
  simp [CopyData, abort, hsteps, he1]

/-- Witness for C6: the second of three rows cannot be scanned; the first row was
inserted in the transaction and is gone after the rollback. -/
theorem CopyData_drain_failure_rolls_back_witness :
    (∀ s ∈ stepsBefore Step.drain, worldBroken.fault s = false) ∧
    worldBroken.cursor = [rowA].map Fetch.good ++ Fetch.scanFail :: [Fetch.good rowB] ∧
    (∀ r, Fetch.scanFail ≠ Fetch.good r) ∧
    (∃ e, (executeInserts worldBroken.cursor worldBroken.dest).err = some e ∧
      (executeInserts worldBroken.cursor worldBroken.dest).added
        + (executeInserts worldBroken.cursor worldBroken.dest).ignored = [rowA].length ∧
      (CopyData worldBroken).err = some e ∧
      (CopyData worldBroken).committed = false ∧
      (CopyData worldBroken).rolledBack = true ∧
      Step.commit ∉ (CopyData worldBroken).steps ∧
      (CopyData worldBroken).report = none ∧
      (CopyData worldBroken).dest = worldBroken.dest ∧
      (CopyData worldBroken).dest.length = worldBroken.dest.length) ∧
    (executeInserts worldBroken.cursor worldBroken.dest).tx = [rowA] ∧
    (CopyData worldBroken).dest = [] :=
  ⟨by decide, rfl, fun _ h => Fetch.noConfusion h,
    CopyData_drain_failure_rolls_back worldBroken [rowA] Fetch.scanFail [Fetch.good rowB]
      (by decide) rfl (fun _ h => Fetch.noConfusion h),
    by decide, by decide⟩

/-- What `CopyData` does with the errors its steps hand to it.  The report is written
exactly when the returned error is nil; an error is returned exactly when one of the
thirteen fallible steps hands one over; when a step does so after all earlier steps
passed, the steps performed are that step and the ones before it and no later one, and
nothing is printed; when no step hands over an error, all steps are performed and the
report is printed last. -/
theorem CopyData_returned_errors (w : World) :
    ((CopyData w).err = none ↔ (CopyData w).report.isSome = true) ∧
    ((CopyData w).err.isSome = true ↔ ∃ s ∈ fallibleSteps, stepReturnsError w s = true) ∧
    (∀ s ∈ fallibleSteps, (∀ t ∈ stepsBefore s, stepReturnsError w t = false) →
      stepReturnsError w s = true →
      (CopyData w).err.isSome = true ∧ (CopyData w).report = none ∧
        (CopyData w).steps = stepsBefore s ++ [s]) ∧
    ((∀ s ∈ fallibleSteps, stepReturnsError w s = false) →
      (CopyData w).err = none ∧ (CopyData w).steps = fallibleSteps ++ [Step.report]) := by
  refine ⟨?_, ?_, fun s hs hpre hf => CopyData_first_failure w s hs hpre hf,
    fun h => ⟨(CopyData_no_failure w h).1, (CopyData_no_failure w h).2.2.1⟩⟩
  · rcases CopyData_cases w with ⟨_, he, hr⟩ | ⟨_, he, hr⟩
    · exact ⟨fun _ => hr, fun _ => he⟩
    · constructor
      · intro h; rw [h] at he; simp at he
      · intro h; rw [hr] at h; simp at h
  · rcases CopyData_cases w with ⟨hall, he, _⟩ | ⟨hex, he, _⟩
    · constructor
      · intro h; rw [he] at h; simp at h
      · rintro ⟨s, hs, hf⟩; rw [hall s hs] at hf; cases hf
    · exact ⟨fun _ => hex, fun _ => he⟩

/-- C7: the code breaks the claim when the iteration over the source cursor fails.
The source holds two rows, `rows.Next()` delivers the first and then fails, and no other
step fails.  The drain step has failed, yet `executeInserts` returns no error because
`rows.Err()` is never read: `CopyData` commits the partial copy, never calls
`tx.Rollback`, prints a report that shows one record processed out of a source count of
two, and returns nil. -/
theorem CopyData_swallows_cursor_failure :
    stepFails worldCut Step.drain = true ∧
    (∀ s ∈ stepsBefore Step.drain, stepFails worldCut s = false) ∧
    (executeInserts worldCut.cursor worldCut.dest).err = none ∧
    (CopyData worldCut).err = none ∧
    (CopyData worldCut).report.isSome = true ∧
    (CopyData worldCut).steps = fallibleSteps ++ [Step.report] ∧
    (CopyData worldCut).committed = true ∧
    (CopyData worldCut).rolledBack = false ∧
    worldCut.dest = [] ∧
    (CopyData worldCut).dest = [rowA] ∧
    (CopyData worldCut).report.map (fun r => (r.sourceCount, r.processed, r.added, r.ignored))
      = some (2, 1, 1, 0) := by
  refine ⟨by decide, by decide, by decide, by decide, by decide, by decide, by decide,
    by decide, by decide, by decide, by decide⟩

/-- The claim of C8 as stated fails at `b = 12441193970610995`: here
`1024^5 ≤ b < 1024^6` and `b / 1024^5 = 11.0499...`, which is `11.0` with one decimal
place whether rounded to nearest or cut off, since `10 * b` lies less than half of
`1024^5` above `110 * 1024^5`; but `float64(b)` is `b + 1` and `formatSize` prints
`11.1 PB`. -/
theorem formatSize_not_quotient_above_2_53 :
    (1024 : Int) ^ 5 ≤ 12441193970610995 ∧ (12441193970610995 : Int) < 1024 ^ 6 ∧
    110 * (1024 : Int) ^ 5 ≤ 10 * 12441193970610995 ∧
    2 * (10 * 12441193970610995 - 110 * (1024 : Int) ^ 5) < 1024 ^ 5 ∧
    toFloat64 12441193970610995 = 12441193970610996 ∧
    formatSize 12441193970610995 = some "11.1 PB" := by
  have hf : toFloat64 12441193970610995 = 12441193970610996 := by
    rw [toFloat64_large 12441193970610995 53 (by decide) (by decide) (by decide)]
    decide
  refine ⟨by decide, by decide, by decide, by decide, hf, ?_⟩
  obtain ⟨u, hu, hfmt⟩ := formatSize_scaled 12441193970610995 5 (by decide) (by decide)
    (by decide) (by decide)
  have hu1 : u = "PB" := by
    have : binaryUnits[5 - 1]? = some "PB" := by decide
    rw [this] at hu
    exact (Option.some.inj hu).symm
  have hn : (12441193970610995 : Int).toNat = 12441193970610995 := by decide
  rw [hfmt, hu1, hn, hf]
  decide

/-- C8 (amended): `formatSize` scales by 1024.  For `0 ≤ b < 2^63`: below 1024 the text
is the decimal of `b` followed by `" B"`; from 1024 on there is exactly one `k` with
`1024^k ≤ b < 1024^(k+1)`, it lies between 1 and 6, the loop leaves `div = 1024^k` and
`exp = k - 1`, the unit `u` is the `k`-th of KB, MB, GB, TB, PB, EB, and the text is the
decimal of `t / 10`, a point, the digit `t % 10`, a blank and `u`.  Here `t` is the
number of tenths nearest to `f / 1024^k`, ties to even, and `f` is the `float64` nearest
to `b`: with `2^j ≤ b < 2^(j+1)` it is the multiple of `2^(j-52)` nearest to `b`, ties
to the even multiple.  So `f = b` and `t` is `b / 1024^k` rounded to the nearest tenth
whenever `b < 2^53`, and for every `b` the number shown is less than one tenth away from
`b / 1024^k`. -/
theorem formatSize_binary_scaling (b : Int) (h0 : 0 ≤ b) (hmax : b < 2 ^ 63) :
    (b < 1024 → formatSize b = some (toString b ++ " B")) ∧
    (1024 ≤ b → ∃ k : Nat, 1 ≤ k ∧ k ≤ 6 ∧ 1024 ^ k ≤ b ∧ b < 1024 ^ (k + 1)) ∧
    (∀ k j : Nat, 1024 ^ k ≤ b → b < 1024 ^ (k + 1) → 1024 ^ j ≤ b → b < 1024 ^ (j + 1) →
      k = j) ∧
    (∀ k : Nat, 1 ≤ k → 1024 ^ k ≤ b → b < 1024 ^ (k + 1) →
      scaleLoop (b.tdiv unit) unit 0 = (1024 ^ k, k - 1) ∧
      ∃ (u : String) (t f j : Nat),
        ["KB", "MB", "GB", "TB", "PB", "EB"][k - 1]? = some u ∧
        formatSize b = some (toString (t / 10) ++ "." ++ toString (t % 10) ++ " " ++ u) ∧
        (2 ^ j ≤ b.toNat ∧ b.toNat < 2 ^ (j + 1) ∧ 2 ^ (j - 52) ∣ f ∧
          2 * f ≤ 2 * b.toNat + 2 ^ (j - 52) ∧ 2 * b.toNat ≤ 2 * f + 2 ^ (j - 52) ∧
          ((2 * f = 2 * b.toNat + 2 ^ (j - 52) ∨ 2 * b.toNat = 2 * f + 2 ^ (j - 52)) →
            f / 2 ^ (j - 52) % 2 = 0)) ∧
        (2 * (t * 1024 ^ k) ≤ 20 * f + 1024 ^ k ∧ 20 * f ≤ 2 * (t * 1024 ^ k) + 1024 ^ k ∧
          ((2 * (t * 1024 ^ k) = 20 * f + 1024 ^ k ∨ 20 * f = 2 * (t * 1024 ^ k) + 1024 ^ k) →
            t % 2 = 0)) ∧
        (b < 2 ^ 53 → (f : Int) = b) ∧
        10 * b < (t : Int) * 1024 ^ k + 1024 ^ k ∧ (t : Int) * 1024 ^ k < 10 * b + 1024 ^ k) := by
  refine ⟨formatSize_small b, fun hb => exponent_exists b hb hmax, ?_, ?_⟩
  · intro k j hk1 hk2 hj1 hj2
    by_contra hne
    rcases Nat.lt_or_gt_of_ne hne with hlt | hlt
    · have : (1024 : Int) ^ (k + 1) ≤ 1024 ^ j := pow_le_pow_right₀ (by decide) hlt
      omega
    · have : (1024 : Int) ^ (j + 1) ≤ 1024 ^ k := pow_le_pow_right₀ (by decide) hlt
      omega
  · intro k hk hlo hhi
    obtain ⟨u, hu, hfmt⟩ := formatSize_scaled b k hk hlo hhi hmax
    obtain ⟨x, rfl⟩ : ∃ x : Nat, b = (x : Int) := ⟨b.toNat, by omega⟩
    have hxlo : 1024 ^ k ≤ x := by exact_mod_cast hlo
    have hxhi : x < 1024 ^ (k + 1) := by exact_mod_cast hhi
    have hxmax : x < 2 ^ 63 := by exact_mod_cast hmax
    have hxpos : 0 < x := lt_of_lt_of_le (by positivity) hxlo
    have hd : 0 < 1024 ^ k := by positivity
    obtain ⟨j, hj⟩ := toFloat64_exact x hxpos hxmax
    have hq := tenths_quotient x k hk hxlo hxhi hxmax
    rw [Int.toNat_natCast] at hfmt ⊢
    refine ⟨scaleLoop_formatSize _ k hk hlo hhi hmax, u,
      tenths (toFloat64 x) (1024 ^ k), toFloat64 x, j, hu, hfmt, hj,
      ⟨(tenths_near _ _ hd).1, (tenths_near _ _ hd).2, tenths_tie_even _ _ hd⟩, ?_, ?_, ?_⟩
    · intro hs
      rw [toFloat64_small x (by exact_mod_cast hs)]
    · exact_mod_cast hq.1
    · exact_mod_cast hq.2

/-- Witness for C8 (amended): 1536 bytes are printed as `1.5 KB` and 123456789 bytes as
`117.7 MB`. -/
theorem formatSize_binary_scaling_witness :
    (0 : Int) ≤ 123456789 ∧ (123456789 : Int) < 2 ^ 63 ∧
    ((1024 : Int) ^ 2 ≤ 123456789 ∧ (123456789 : Int) < 1024 ^ (2 + 1)) ∧
    scaleLoop ((123456789 : Int).tdiv unit) unit 0 = (1024 ^ 2, 2 - 1) ∧
    formatSize 123456789 = some "117.7 MB" ∧
    formatSize 1536 = some "1.5 KB" ∧
    formatSize 1023 = some "1023 B" := by
  have h := formatSize_binary_scaling 123456789 (by decide) (by decide)
  have hs := (h.2.2.2 2 (by decide) (by decide) (by decide)).1
  refine ⟨by decide, by decide, ⟨by decide, by decide⟩, hs, ?_, ?_, ?_⟩
  · obtain ⟨u, hu, hfmt⟩ := formatSize_scaled 123456789 2 (by decide) (by decide)
      (by decide) (by decide)
    have hu1 : u = "MB" := by
      have : binaryUnits[2 - 1]? = some "MB" := by decide
      rw [this] at hu
      exact (Option.some.inj hu).symm
    rw [hfmt, hu1, toFloat64_small _ (by decide)]
    decide
  · obtain ⟨u, hu, hfmt⟩ := formatSize_scaled 1536 1 (by decide) (by decide)
      (by decide) (by decide)
    have hu1 : u = "KB" := by
      have : binaryUnits[1 - 1]? = some "KB" := by decide
      rw [this] at hu
      exact (Option.some.inj hu).symm
    rw [hfmt, hu1, toFloat64_small _ (by decide)]
    decide
  · exact (formatSize_binary_scaling 1023 (by decide) (by decide)).1 (by decide)

/-- Rows on which the claim of C9 as stated fails: `Exec` succeeds and `RowsAffected`
returns an error, which is neither a scan nor an insert error. -/
theorem drains_differ_on_rowsAffected_error :
    ¬ ∀ (rows : List Fetch) (t : Table), (∀ f ∈ rows, scanOrInsertError f = false) →
      (ExecuteInserts rows t).count
        = (executeInserts rows t).added + (executeInserts rows t).ignored := by
  intro h
  have := h [Fetch.affectedFail rowA] [] (by decide)
  revert this
  decide

/-- C9 (amended): on every cursor and destination on which `executeInserts` meets no
scan, insert or rows-affected error, `SQLiteQueryExecutor.ExecuteInserts` and the loop of
`TransferData` succeed with a count equal to the number of rows processed, which is
`added + ignored` of `SQLiteCopier.executeInserts`, all three drains leave the same
table in the transaction, and in a world where no engine call fails `TransferData` and
`CopyData` leave the same destination table. -/
theorem drains_agree (rows : List Fetch) (t : Table)
    (h : (executeInserts rows t).err = none) :
    ExecuteInserts rows t = ⟨rows.length, none, (executeInserts rows t).tx⟩ ∧
    transferLoop rows t 0 = ⟨rows.length, none, (executeInserts rows t).tx⟩ ∧
    (ExecuteInserts rows t).count
      = (executeInserts rows t).added + (executeInserts rows t).ignored ∧
    (∀ w : World, w.cursor = rows → w.dest = t → (∀ s ∈ fallibleSteps, w.fault s = false) →
      (TransferData w).err = none ∧ (CopyData w).err = none ∧
      (TransferData w).dest = (CopyData w).dest ∧
      (TransferData w).logged = some rows.length) := by
  have hgood : ∀ f ∈ rows, ∃ r, f = Fetch.good r := fun f hf =>
    (executeInsertsLoop_stored rows t 0 0 h f hf).imp (fun _ hr => hr.1)
  obtain ⟨rs, rfl⟩ := all_good_eq_map rows hgood
  have hE : ExecuteInserts (rs.map Fetch.good) t
      = ⟨(rs.map Fetch.good).length, none, (executeInserts (rs.map Fetch.good) t).tx⟩ := by
    have := ExecuteInsertsLoop_good rs t 0 0 0
    simpa [ExecuteInserts, executeInserts] using this
  have hT : transferLoop (rs.map Fetch.good) t 0
      = ⟨(rs.map Fetch.good).length, none, (executeInserts (rs.map Fetch.good) t).tx⟩ := by
    have := transferLoop_good rs t 0 0 0
    simpa [executeInserts] using this
  refine ⟨hE, hT, ?_, ?_⟩
  · have htally := executeInsertsLoop_tally (rs.map Fetch.good) t 0 0 h
    rw [hE]
    simpa [executeInserts] using htally.symm
  · intro w hc hd hq
    have hall : ∀ s ∈ fallibleSteps, stepReturnsError w s = false := by
      intro s hs
      have := hq s hs
      cases s <;> simp [stepReturnsError, hc, hd, h] <;> exact this
    have hcd := CopyData_no_failure w hall
    simp [fallibleSteps] at hq
    have htd : TransferData w = ⟨none, (executeInserts (rs.map Fetch.good) t).tx,
        some (rs.map Fetch.good).length⟩ := by
      simp [TransferData, hq, hc, hd, hT]
    rw [htd, hcd.1, hcd.2.2.2.1, hc, hd]
    simp

/-- Witness for C9 (amended): a new row and a duplicate. -/
theorem drains_agree_witness :
    (executeInserts [.good rowA, .good rowB] [rowA]).err = none ∧
    (ExecuteInserts [.good rowA, .good rowB] [rowA]).count = 2 ∧
    (executeInserts [.good rowA, .good rowB] [rowA]).added = 1 ∧
    (executeInserts [.good rowA, .good rowB] [rowA]).ignored = 1 ∧
    (ExecuteInserts [.good rowA, .good rowB] [rowA]).count
      = (executeInserts [.good rowA, .good rowB] [rowA]).added
        + (executeInserts [.good rowA, .good rowB] [rowA]).ignored :=
  ⟨by decide, by decide, by decide, by decide,
    (drains_agree [.good rowA, .good rowB] [rowA] (by decide)).2.2.1⟩

/-- C10: `formatSize` is total on `int64`.  The scaling loop is a total function (its
argument `n` strictly decreases while it is at least 1024), and for every
`-2^63 ≤ b < 2^63` the call returns a string, the loop leaves `exp ≤ 5` with `div`
never wrapped, so `"KMGTPE"[exp]` is in range; every `b` below 1024, in particular every
negative `b` such as a negative size change, is printed unscaled followed by `" B"`. -/
theorem formatSize_total (b : Int) (hlo : -2 ^ 63 ≤ b) (hhi : b < 2 ^ 63) :
    (∃ s, formatSize b = some s) ∧
    (scaleLoop (b.tdiv unit) unit 0).2 ≤ 5 ∧
    (unitLetter (scaleLoop (b.tdiv unit) unit 0).2).isSome = true ∧
    (b < 0 → formatSize b = some (toString b ++ " B")) ∧
    (∀ before after : Int, 0 ≤ before → before < 2 ^ 63 → 0 ≤ after → after < before →
      formatSize (wrap64 (after - before)) = some (toString (after - before) ++ " B")) := by
  have hneg : ∀ before after : Int, 0 ≤ before → before < 2 ^ 63 → 0 ≤ after → after < before →
      formatSize (wrap64 (after - before)) = some (toString (after - before) ++ " B") := by
    intro before after h1 h2 h3 h4
    rw [wrap64_id (after - before) (by omega) (by omega)]
    exact formatSize_small _ (by omega)
  by_cases hb : b < 1024
  · have hs := scaleLoop_stop (b.tdiv unit) unit 0 (tdiv_unit_small b hb)
    refine ⟨⟨_, formatSize_small b hb⟩, ?_, ?_, fun _ => formatSize_small b hb, hneg⟩
    · rw [hs]; decide
    · rw [hs]; decide
  · obtain ⟨k, hk1, hk6, hklo, hkhi⟩ := exponent_exists b (by omega) hhi
    have hs := scaleLoop_formatSize b k hk1 hklo hkhi hhi
    obtain ⟨u, _, hfmt⟩ := formatSize_scaled b k hk1 hklo hkhi hhi
    refine ⟨⟨_, hfmt⟩, ?_, ?_, fun hn => absurd (by omega) hb, hneg⟩
    · rw [hs]; simp only; omega
    · rw [hs]; simp only
      interval_cases k <;> decide

/-- Witness for C10: the largest `int64`. -/
theorem formatSize_total_witness :
    (-2 ^ 63 : Int) ≤ 2 ^ 63 - 1 ∧ (2 ^ 63 - 1 : Int) < 2 ^ 63 ∧
    (∃ s, formatSize (2 ^ 63 - 1) = some s) ∧
    (scaleLoop ((2 ^ 63 - 1 : Int).tdiv unit) unit 0).2 ≤ 5 :=
  ⟨by decide, by decide, (formatSize_total (2 ^ 63 - 1) (by decide) (by decide)).1,
    (formatSize_total (2 ^ 63 - 1) (by decide) (by decide)).2.1⟩

end Manydonkey
